import Mathlib

/-!
Verification of the ModSimPy teaching notebooks against their
natural-language specification.

The notebooks assemble small model functions around a helper library
(`modsim.py`, downloaded at run time and therefore not part of this
repository's sources).  Functions that live in the notebooks themselves
(the bikeshare updates `bike_to_wellesley`, `bike_to_olin`, `step`,
`run_simulation`, the calibration wrapper `range_func`, the free-fall
`slope_func` and `event_func`) are embedded directly from the source.
Library routines that only have call sites in the sources
(`run_solve_ivp`, `interpolate`, `root_scalar`, `Params.set`) are
modelled from the specification; each such definition carries a doc
comment saying so.

Python semantics note: the bikeshare update functions mutate their
`State` argument in place (the notebook says "When this function is
called, it modifies `bikeshare`").  We embed each of them as a function
`BState → BState` returning the contents of the caller's `State` object
after the call, so "the caller's object is unchanged" reads as
`f s = s`.
-/

/-- Bikeshare `State` object: `State(olin=…, wellesley=…, wellesley_empty=…)`.
Fields are Python ints, so `ℤ`.  Notebook states that do not mention
`wellesley_empty` correspond to states where that field is never read. -/
structure BState where
  olin : ℤ
  wellesley : ℤ
  wellesley_empty : ℤ
deriving DecidableEq, Repr

/-- Source `bike_to_wellesley(state)` (final version, chap23 "Iterative Modeling"
exercise listing): `state.olin -= 1; state.wellesley += 1`, no emptiness
check.  Returns the caller's state after the call. -/
def bike_to_wellesley (s : BState) : BState :=
  { s with olin := s.olin - 1, wellesley := s.wellesley + 1 }

/-- First generalized `bike_to_olin(state)` (docstring version):
`state.wellesley -= 1; state.olin += 1`. -/
def bike_to_olin_v1 (s : BState) : BState :=
  { s with wellesley := s.wellesley - 1, olin := s.olin + 1 }

/-- Guarded `bike_to_olin(state)`: `if state.wellesley == 0: return`,
else move one bike from Wellesley to Olin. -/
def bike_to_olin_guarded (s : BState) : BState :=
  if s.wellesley = 0 then s
  else { s with wellesley := s.wellesley - 1, olin := s.olin + 1 }

/-- Final (counting) `bike_to_olin(state)`: on the empty branch it
increments `wellesley_empty` and returns; otherwise it moves a bike. -/
def bike_to_olin (s : BState) : BState :=
  if s.wellesley = 0 then { s with wellesley_empty := s.wellesley_empty + 1 }
  else { s with wellesley := s.wellesley - 1, olin := s.olin + 1 }

/-- Source `step(state, p1, p2)`: `if flip(p1): bike_to_wellesley(state)`,
then `if flip(p2): bike_to_olin(state)`.  The two random flip outcomes
are made explicit arguments `f1 f2 : Bool`. -/
def step (f1 f2 : Bool) (s : BState) : BState :=
  let s1 := if f1 then bike_to_wellesley s else s
  if f2 then bike_to_olin s1 else s1

/-- Source `run_simulation(state, p1, p2, num_steps)`: records `state.olin`
before the loop and after each `step`, mutating `state` throughout.
The flip outcomes of the whole run are an explicit list (one pair per
loop iteration); the result is (`results` time series, caller's state
after the run). -/
def run_simulation (s : BState) (flips : List (Bool × Bool)) : List ℤ × BState :=
  match flips with
  | [] => ([s.olin], s)
  | f :: rest =>
      let s' := step f.1 f.2 s
      let r := run_simulation s' rest
      (s.olin :: r.1, r.2)

/-- Caller's state after `run_simulation` is the fold of `step` over the
flip outcomes. -/
lemma run_simulation_state (s : BState) (flips : List (Bool × Bool)) :
    (run_simulation s flips).2 = flips.foldl (fun t f => step f.1 f.2 t) s := by
  induction flips generalizing s with
  | nil => rfl
  | cons f rest ih => simp [run_simulation, ih]

/-- Total bike count `olin + wellesley`. -/
def totalBikes (s : BState) : ℤ := s.olin + s.wellesley

lemma totalBikes_bike_to_wellesley (s : BState) :
    totalBikes (bike_to_wellesley s) = totalBikes s := by
  simp [totalBikes, bike_to_wellesley]

lemma totalBikes_bike_to_olin_v1 (s : BState) :
    totalBikes (bike_to_olin_v1 s) = totalBikes s := by
  simp [totalBikes, bike_to_olin_v1]

lemma totalBikes_bike_to_olin_guarded (s : BState) :
    totalBikes (bike_to_olin_guarded s) = totalBikes s := by
  unfold bike_to_olin_guarded
  split <;> simp [totalBikes]

lemma totalBikes_bike_to_olin (s : BState) :
    totalBikes (bike_to_olin s) = totalBikes s := by
  unfold bike_to_olin
  split <;> simp [totalBikes]

lemma totalBikes_step (f1 f2 : Bool) (s : BState) :
    totalBikes (step f1 f2 s) = totalBikes s := by
  unfold step
  cases f1 <;> cases f2 <;>
    simp [totalBikes_bike_to_olin, totalBikes_bike_to_wellesley]

/-- C8: the total number of bikes `olin + wellesley` is preserved by
`bike_to_wellesley`, by every version of `bike_to_olin` (the plain, the
guarded and the counting variant), by `step` under any flip outcome, and
hence by `run_simulation` for any number of steps. -/
theorem bikeshare_total_conserved :
    (∀ s : BState, totalBikes (bike_to_wellesley s) = totalBikes s) ∧
    (∀ s : BState, totalBikes (bike_to_olin_v1 s) = totalBikes s) ∧
    (∀ s : BState, totalBikes (bike_to_olin_guarded s) = totalBikes s) ∧
    (∀ s : BState, totalBikes (bike_to_olin s) = totalBikes s) ∧
    (∀ (f1 f2 : Bool) (s : BState), totalBikes (step f1 f2 s) = totalBikes s) ∧
    (∀ (s : BState) (flips : List (Bool × Bool)),
      totalBikes (run_simulation s flips).2 = totalBikes s) := by
  refine ⟨totalBikes_bike_to_wellesley, totalBikes_bike_to_olin_v1,
    totalBikes_bike_to_olin_guarded, totalBikes_bike_to_olin, totalBikes_step, ?_⟩
  intro s flips
  rw [run_simulation_state]
  induction flips generalizing s with
  | nil => rfl
  | cons f rest ih => simpa [totalBikes_step] using ih (step f.1 f.2 s)

/-- C9: with `wellesley = 0`, the guarded `bike_to_olin` leaves `olin`
and `wellesley` unchanged and the counting variant additionally only
increments `wellesley_empty`; consequently from any state with
`wellesley ≥ 0`, `wellesley` stays nonnegative under any sequence of
`bike_to_olin` calls. -/
theorem bike_to_olin_guard_no_negative (s : BState) (h : 0 ≤ s.wellesley) :
    (∀ t : BState, t.wellesley = 0 →
      bike_to_olin_guarded t = t ∧
      bike_to_olin t = { t with wellesley_empty := t.wellesley_empty + 1 }) ∧
    (∀ n : ℕ, 0 ≤ (bike_to_olin^[n] s).wellesley) ∧
    (∀ n : ℕ, 0 ≤ (bike_to_olin_guarded^[n] s).wellesley) := by
  refine ⟨fun t ht => ⟨by simp [bike_to_olin_guarded, ht], by simp [bike_to_olin, ht]⟩, ?_, ?_⟩
  · intro n
    induction n with
    | zero => simpa using h
    | succ n ih =>
        rw [Function.iterate_succ_apply']
        set t := bike_to_olin^[n] s with ht
        unfold bike_to_olin
        split
        · simpa using ih
        · rename_i hne
          simp only
          omega
  · intro n
    induction n with
    | zero => simpa using h
    | succ n ih =>
        rw [Function.iterate_succ_apply']
        set t := bike_to_olin_guarded^[n] s with ht
        unfold bike_to_olin_guarded
        split
        · exact ih
        · rename_i hne
          simp only
          omega

/-- Witness for C9 at the notebook's own test state
`State(olin=12, wellesley=0, wellesley_empty=0)`. -/
theorem bike_to_olin_guard_no_negative_witness :
    (0 : ℤ) ≤ (BState.mk 12 0 0).wellesley ∧
    0 ≤ (bike_to_olin^[3] (BState.mk 12 0 0)).wellesley :=
  ⟨by decide, (bike_to_olin_guard_no_negative (BState.mk 12 0 0) (by decide)).2.1 3⟩

/-- C10: the final `bike_to_wellesley` unconditionally decrements `olin`
and increments `wellesley` with no emptiness check; from a state with
`olin = 0` a single call produces the negative count `olin = -1`. -/
theorem bike_to_wellesley_goes_negative :
    (∀ s : BState, (bike_to_wellesley s).olin = s.olin - 1 ∧
      (bike_to_wellesley s).wellesley = s.wellesley + 1 ∧
      (bike_to_wellesley s).wellesley_empty = s.wellesley_empty) ∧
    (bike_to_wellesley (BState.mk 0 12 0)).olin = -1 := by
  exact ⟨fun s => ⟨rfl, rfl, rfl⟩, by decide⟩

/-- C3 counterexample: `run_simulation` does not leave the caller's
`State` unchanged.  Starting from the notebook state
`State(olin=10, wellesley=2, wellesley_empty=0)`, one step whose first
flip succeeds leaves the caller's object with `olin = 9`. -/
theorem run_simulation_mutates_caller_state :
    (run_simulation (BState.mk 10 2 0) [(true, false)]).2 ≠ BState.mk 10 2 0 ∧
    (run_simulation (BState.mk 10 2 0) [(true, false)]).2 = BState.mk 9 3 0 := by
  decide

/-- C3 amended: the bikeshare drivers mutate the caller's `State` in
place rather than producing a fresh one — after `bike_to_wellesley` the
caller's object has `olin` decremented and `wellesley` incremented, and
after `run_simulation` the caller's object holds the final state of the
run (the fold of `step` over the flip outcomes), not its initial value. -/
theorem run_simulation_updates_in_place :
    (∀ s : BState, bike_to_wellesley s =
      { s with olin := s.olin - 1, wellesley := s.wellesley + 1 }) ∧
    (∀ (s : BState) (flips : List (Bool × Bool)),
      (run_simulation s flips).2 = flips.foldl (fun t f => step f.1 f.2 t) s) ∧
    (run_simulation (BState.mk 10 2 0) [(true, false)]).2 = BState.mk 9 3 0 := by
  exact ⟨fun s => rfl, run_simulation_state, by decide⟩

/-- Record `params` of the baseball chapters (chap22/chap23): the free
parameter `angle` plus the other scalar fields the notebook sets
(`speed`, `wall_distance`, `wall_height`).  Scalars are `ℚ`. -/
structure Params where
  angle : ℚ
  speed : ℚ
  wall_distance : ℚ
  wall_height : ℚ
deriving DecidableEq, Repr

/-- Modelled from the spec: `Params.set` (from `modsim.py`, which is not
under `src/`) — "calibration routines produce a *new* parameter record
with one field overridden rather than mutating the original"; the
notebook likewise says `params.set(...)` makes "a new `Params` object".
Here the overridden field is `angle`, as in `range_func`. -/
def Params.set_angle (p : Params) (angle : ℚ) : Params :=
  { p with angle := angle }

/-- Source `range_func(angle, params)` from chap23: rebinds its local name to
`params.set(angle=angle)`, simulates, and returns the final `x` of the
trajectory.  The simulate-and-extract part (`make_system`,
`run_solve_ivp`, `results.iloc[-1].x`, all from files not under `src/`)
is abstracted as a pure observable `obs : Params → ℚ` of the freshly
derived record.  The second component is the caller's `params` object
after the call: rebinding the local name does not touch it. -/
def range_func (obs : Params → ℚ) (angle : ℚ) (params : Params) : ℚ × Params :=
  (obs (params.set_angle angle), params)

/-- Modelled from the spec: the sequence of `N` objective evaluations an
optimizer such as `maximize_scalar` performs, threading the caller's
`params` object through each `range_func` call in order. -/
def evalSequence (obs : Params → ℚ) (angles : List ℚ) (params : Params) :
    List ℚ × Params :=
  match angles with
  | [] => ([], params)
  | a :: rest =>
      let r1 := range_func obs a params
      let r := evalSequence obs rest r1.2
      (r1.1 :: r.1, r.2)

/-- C4: `N` calibration evaluations of the wrapped objective leave the
original `Params` record unmutated — after all `N` calls the caller's
record equals the original, each evaluation derives a fresh record with
only `angle` overridden, and the list of results is exactly the map of
independent evaluations over the angles (evaluation `k+1` observes no
side effect of evaluation `k`). -/
theorem params_unmutated_across_evaluations :
    (∀ (obs : Params → ℚ) (angles : List ℚ) (p : Params),
      (evalSequence obs angles p).2 = p) ∧
    (∀ (p : Params) (a : ℚ),
      (p.set_angle a).angle = a ∧
      (p.set_angle a).speed = p.speed ∧
      (p.set_angle a).wall_distance = p.wall_distance ∧
      (p.set_angle a).wall_height = p.wall_height) ∧
    (∀ (obs : Params → ℚ) (angles : List ℚ) (p : Params),
      (evalSequence obs angles p).1 = angles.map (fun a => obs (p.set_angle a))) := by
  have hstate : ∀ (obs : Params → ℚ) (angles : List ℚ) (p : Params),
      (evalSequence obs angles p).2 = p := by
    intro obs angles
    induction angles with
    | nil => intro p; rfl
    | cons a rest ih => intro p; simp [evalSequence, range_func, ih]
  refine ⟨hstate, fun p a => ⟨rfl, rfl, rfl, rfl⟩, ?_⟩
  intro obs angles
  induction angles with
  | nil => intro p; rfl
  | cons a rest ih => intro p; simp [evalSequence, range_func, ih]

/-- Modelled from the spec: `root_scalar` (from `modsim.py`/SciPy
`brentq`, not under `src/`) — a bracketing root finder that "fails
explicitly if the interval does not bracket a root (no silent fallback
to closest value found)".  If `f a` and `f b` have the same strict sign
it reports the error; otherwise it bisects for `fuel` rounds.  The
`converged` flag and message mirror the spec's outcome metadata. -/
structure RootResult where
  converged : Bool
  flag : String
  root : Option ℚ
deriving Repr

def bisect_step (f : ℚ → ℚ) : ℕ → ℚ → ℚ → ℚ
  | 0, a, b => (a + b) / 2
  | n + 1, a, b =>
      if f a * f ((a + b) / 2) ≤ 0 then bisect_step f n a ((a + b) / 2)
      else bisect_step f n ((a + b) / 2) b

def root_scalar (f : ℚ → ℚ) (a b : ℚ) (fuel : ℕ) : RootResult :=
  if 0 < f a * f b then
    { converged := false
      flag := "f(a) and f(b) must have different signs"
      root := none }
  else
    { converged := true, flag := "converged", root := some (bisect_step f fuel a b) }

/-- C6: on a bracket whose endpoint values have the same strict sign
(no sign change over `[a, b]`), `root_scalar` fails explicitly: the
convergence flag is false, the message is the diagnostic, and no value —
in particular no interval endpoint — is returned as a root. -/
theorem root_scalar_fails_without_bracket (f : ℚ → ℚ) (a b : ℚ)
    (fuel : ℕ) (h : 0 < f a * f b) :
    (root_scalar f a b fuel).converged = false ∧
    (root_scalar f a b fuel).flag = "f(a) and f(b) must have different signs" ∧
    (root_scalar f a b fuel).root = none := by
  simp [root_scalar, h]

/-- Witness for C6: `f x = x² + 1` on `[0, 1]` has no sign change, and
`root_scalar` reports non-convergence with no root value. -/
theorem root_scalar_fails_without_bracket_witness :
    (0 : ℚ) < ((0 : ℚ) ^ 2 + 1) * ((1 : ℚ) ^ 2 + 1) ∧
    (root_scalar (fun x => x ^ 2 + 1) 0 1 5).converged = false ∧
    (root_scalar (fun x => x ^ 2 + 1) 0 1 5).root = none := by
  have h : (0 : ℚ) < ((fun x : ℚ => x ^ 2 + 1) 0) * ((fun x : ℚ => x ^ 2 + 1) 1) := by
    norm_num
  have := root_scalar_fails_without_bracket (fun x => x ^ 2 + 1) 0 1 5 h
  exact ⟨by norm_num, this.1, this.2.2⟩

/-- Run outcome metadata plus trajectory, as described by the spec for
`run_solve_ivp`: success flag, human-readable status message, and the
time-indexed trajectory (sample points of type `α` tagged with their
times elsewhere; here a plain list of integration points). -/
structure IvpOutcome (α : Type) where
  success : Bool
  message : String
  trajectory : List α
deriving Repr

/-- Modelled from the spec: the stepping loop of `run_solve_ivp`
(`modsim.py`/SciPy `solve_ivp`, not under `src/`).  The adaptive
integrator is abstracted as `stepf`, which either produces the next
accepted point or fails to converge within its step-size limits
(`none`).  The driver records every accepted point; on integrator
failure it returns `success := false` together with the diagnostic
message and the prefix integrated so far — it is a total function, so
no exception can abort the caller. -/
def run_solve_ivp_loop {α : Type} (stepf : α → Option α) : ℕ → α → IvpOutcome α
  | 0, p =>
      { success := true
        message := "The solver successfully reached the end of the integration interval."
        trajectory := [p] }
  | n + 1, p =>
      match stepf p with
      | none =>
          { success := false
            message := "Required step size is less than spacing between numbers."
            trajectory := [p] }
      | some q =>
          let r := run_solve_ivp_loop stepf n q
          { r with trajectory := p :: r.trajectory }

/-- C7: whenever the integrator fails to converge, the driver surfaces
it through the returned outcome metadata — success flag `false` and a
diagnostic message — rather than aborting the caller, and the returned
trajectory is the valid prefix integrated so far: it starts at the
initial point, every consecutive pair is an accepted integrator step,
and on failure the step out of its last point is the one that failed
(so the prefix may be empty beyond the start). -/
theorem run_solve_ivp_surfaces_failure {α : Type} (stepf : α → Option α)
    (fuel : ℕ) (p : α) :
    (run_solve_ivp_loop stepf fuel p).trajectory.head? = some p ∧
    List.Chain' (fun x y => stepf x = some y)
      (run_solve_ivp_loop stepf fuel p).trajectory ∧
    ((run_solve_ivp_loop stepf fuel p).success = false →
      (run_solve_ivp_loop stepf fuel p).message =
        "Required step size is less than spacing between numbers." ∧
      ∃ q, (run_solve_ivp_loop stepf fuel p).trajectory.getLast? = some q ∧
        stepf q = none) := by
  induction fuel generalizing p with
  | zero =>
      refine ⟨rfl, List.chain'_singleton p, ?_⟩
      intro h
      simp [run_solve_ivp_loop] at h
  | succ n ih =>
      cases hs : stepf p with
      | none =>
          refine ⟨by simp [run_solve_ivp_loop, hs], ?_, ?_⟩
          · simp [run_solve_ivp_loop, hs]
          · intro _
            refine ⟨by simp [run_solve_ivp_loop, hs], p, by simp [run_solve_ivp_loop, hs], hs⟩
      | some q =>
          obtain ⟨ih1, ih2, ih3⟩ := ih q
          have htr : (run_solve_ivp_loop stepf (n + 1) p).trajectory =
              p :: (run_solve_ivp_loop stepf n q).trajectory := by
            simp [run_solve_ivp_loop, hs]
          have hsc : (run_solve_ivp_loop stepf (n + 1) p).success =
              (run_solve_ivp_loop stepf n q).success := by
            simp [run_solve_ivp_loop, hs]
          have hms : (run_solve_ivp_loop stepf (n + 1) p).message =
              (run_solve_ivp_loop stepf n q).message := by
            simp [run_solve_ivp_loop, hs]
          refine ⟨by simp [htr], ?_, ?_⟩
          · rw [htr]
            refine List.chain'_cons'.2 ⟨?_, ih2⟩
            intro y hy
            rw [ih1] at hy
            cases hy
            exact hs
          · intro hfail
            rw [hsc] at hfail
            obtain ⟨hm, r, hr, hrn⟩ := ih3 hfail
            refine ⟨by rw [hms, hm], r, ?_, hrn⟩
            rw [htr]
            cases htail : (run_solve_ivp_loop stepf n q).trajectory with
            | nil => rw [htail] at hr; simp at hr
            | cons a l =>
                rw [htail] at hr
                rw [List.getLast?_cons_cons]
                exact hr

/-- Witness for C7: an integrator that fails after two accepted steps.
The driver reports `success = false` with the diagnostic message and
returns the two-step valid prefix. -/
theorem run_solve_ivp_surfaces_failure_witness :
    (run_solve_ivp_loop (fun t : ℕ => if t < 2 then some (t + 1) else none) 5 0).success
      = false ∧
    (run_solve_ivp_loop (fun t : ℕ => if t < 2 then some (t + 1) else none) 5 0).message
      = "Required step size is less than spacing between numbers." ∧
    ∃ q, (run_solve_ivp_loop
        (fun t : ℕ => if t < 2 then some (t + 1) else none) 5 0).trajectory.getLast?
        = some q ∧
      (if q < 2 then some (q + 1) else none) = none := by
  have h := (run_solve_ivp_surfaces_failure
    (fun t : ℕ => if t < 2 then some (t + 1) else none) 5 0).2.2 (by decide)
  exact ⟨by decide, h.1, h.2⟩

/-- Adjacent-step pairs `(t_i, t_{i+1})` of a grid of accepted step
times, the sub-intervals the spec's event detection inspects. -/
def stepPairs (ts : List ℚ) : List (ℚ × ℚ) := ts.zip ts.tail

/-- Sign change of the event value over one accepted step (direction
unspecified: either direction counts). -/
def signChange (g : ℚ → ℚ) (p : ℚ × ℚ) : Bool := decide (g p.1 * g p.2 < 0)

/-- Number of zero-crossings of the event function over the grid. -/
def numCrossings (g : ℚ → ℚ) (ts : List ℚ) : ℕ :=
  ((stepPairs ts).filter (signChange g)).length

/-- First step sub-interval over which the event value changes sign. -/
def firstCrossing (g : ℚ → ℚ) (ts : List ℚ) : Option (ℚ × ℚ) :=
  (stepPairs ts).find? (signChange g)

/-- Modelled from the spec: the event handling of `run_solve_ivp`
(`modsim.py`/SciPy, not under `src/`) for one terminal event function
`g` with direction unspecified.  After each accepted step the driver
checks `g` for a sign change over the step; at the first such
sub-interval it performs local root-finding (bisection, `fuel` rounds)
to locate the crossing time, truncates the trajectory there and stops.
Returns `some (crossing time, truncated time grid)`, or `none` when no
event fires within the horizon. -/
def run_solve_ivp_events (g : ℚ → ℚ) (ts : List ℚ) (fuel : ℕ) :
    Option (ℚ × List ℚ) :=
  match firstCrossing g ts with
  | none => none
  | some (a, b) =>
      let tc := bisect_step g fuel a b
      some (tc, ts.takeWhile (fun t => decide (t ≤ a)) ++ [tc])

/-- Bisection stays inside the bracket. -/
lemma bisect_step_mem (g : ℚ → ℚ) :
    ∀ (n : ℕ) (a b : ℚ), a ≤ b → a ≤ bisect_step g n a b ∧ bisect_step g n a b ≤ b := by
  intro n
  induction n with
  | zero => intro a b hab; constructor <;> simp [bisect_step] <;> linarith
  | succ n ih =>
      intro a b hab
      have hm1 : a ≤ (a + b) / 2 := by linarith
      have hm2 : (a + b) / 2 ≤ b := by linarith
      unfold bisect_step
      split
      · exact ⟨(ih a _ hm1).1, le_trans (ih a _ hm1).2 hm2⟩
      · exact ⟨le_trans hm1 (ih _ b hm2).1, (ih _ b hm2).2⟩

/-- In a strictly increasing grid, the adjacent step pairs are ordered
by their left endpoints. -/
lemma stepPairs_chain (ts : List ℚ) (h : List.Chain' (· < ·) ts) :
    List.Chain' (fun p q : ℚ × ℚ => p.1 < q.1) (stepPairs ts) := by
  induction ts with
  | nil => simp [stepPairs]
  | cons a l ih =>
      cases l with
      | nil => simp [stepPairs]
      | cons b m =>
          have h1 : a < b := (List.chain'_cons.1 h).1
          have h2 : List.Chain' (· < ·) (b :: m) := (List.chain'_cons.1 h).2
          have := ih h2
          cases m with
          | nil => simp [stepPairs]
          | cons c m' =>
              refine List.chain'_cons.2 ⟨h1, ?_⟩
              simpa [stepPairs] using this

/-- Each adjacent step pair of a strictly increasing grid is a proper
interval. -/
lemma stepPairs_lt (ts : List ℚ) (h : List.Chain' (· < ·) ts) :
    ∀ p ∈ stepPairs ts, p.1 < p.2 := by
  induction ts with
  | nil => simp [stepPairs]
  | cons a l ih =>
      cases l with
      | nil => simp [stepPairs]
      | cons b m =>
          intro p hp
          have h1 : a < b := (List.chain'_cons.1 h).1
          have h2 : List.Chain' (· < ·) (b :: m) := (List.chain'_cons.1 h).2
          have hp' : p = (a, b) ∨ p ∈ stepPairs (b :: m) := by
            simpa [stepPairs] using hp
          rcases hp' with rfl | hp'
          · exact h1
          · exact ih h2 p hp'

instance : IsTrans (ℚ × ℚ) (fun p q : ℚ × ℚ => p.1 < q.1) :=
  ⟨fun _ _ _ h1 h2 => lt_trans h1 h2⟩

/-- C2: with a terminal event (direction unspecified) whose value
crosses zero more than once over the requested grid, the driver stops
at the earliest crossing: it returns the crossing time located inside
the FIRST sign-change sub-interval (every sub-interval with a sign
change starts no earlier), the trajectory's final entry is that
crossing time, and no trajectory entry extends past it. -/
theorem run_solve_ivp_stops_at_first_crossing (g : ℚ → ℚ) (ts : List ℚ)
    (fuel : ℕ) (hts : List.Chain' (· < ·) ts) (htwo : 2 ≤ numCrossings g ts) :
    ∃ a b tc traj,
      firstCrossing g ts = some (a, b) ∧
      run_solve_ivp_events g ts fuel = some (tc, traj) ∧
      tc = bisect_step g fuel a b ∧
      a ≤ tc ∧ tc ≤ b ∧
      (∀ p ∈ stepPairs ts, signChange g p = true → a ≤ p.1) ∧
      traj.getLast? = some tc ∧
      (∀ t ∈ traj, t ≤ tc) := by
  have hne : (stepPairs ts).filter (signChange g) ≠ [] := by
    intro h
    rw [numCrossings, h] at htwo
    simp at htwo
  obtain ⟨p0, hp0⟩ := List.exists_mem_of_ne_nil _ hne
  have hp0m : p0 ∈ stepPairs ts := (List.mem_filter.1 hp0).1
  have hp0s : signChange g p0 = true := (List.mem_filter.1 hp0).2
  obtain ⟨ab, hfc⟩ : ∃ ab, firstCrossing g ts = some ab := by
    rcases hcase : firstCrossing g ts with _ | q
    · exact absurd hp0s ((List.find?_eq_none.1 hcase) p0 hp0m)
    · exact ⟨q, rfl⟩
  obtain ⟨a, b⟩ := ab
  have hfind := List.find?_eq_some.1 hfc
  obtain ⟨hsab, pre, post, hsplit, hpre⟩ := hfind
  have hmem : (a, b) ∈ stepPairs ts := by
    rw [hsplit]; simp
  have hab : a < b := stepPairs_lt ts hts (a, b) hmem
  have hbs := bisect_step_mem g fuel a b (le_of_lt hab)
  refine ⟨a, b, bisect_step g fuel a b,
    ts.takeWhile (fun t => decide (t ≤ a)) ++ [bisect_step g fuel a b],
    hfc, ?_, rfl, hbs.1, hbs.2, ?_, ?_, ?_⟩
  · simp [run_solve_ivp_events, hfc]
  · -- minimality: every sign-change sub-interval starts at or after `a`
    intro p hp hps
    have hchain := stepPairs_chain ts hts
    rw [hsplit] at hchain hp
    have hpair : List.Pairwise (fun p q : ℚ × ℚ => p.1 < q.1)
        (pre ++ (a, b) :: post) :=
      List.chain'_iff_pairwise.1 hchain
    rcases List.mem_append.1 hp with hpre' | hpost
    · exfalso
      have := hpre p hpre'
      rw [hps] at this
      simp at this
    · rcases List.mem_cons.1 hpost with hhd | htl
      · rw [hhd]
      · have : a < p.1 := by
          have h2 := (List.pairwise_append.1 hpair).2.1
          exact (List.pairwise_cons.1 h2).1 p htl
        exact le_of_lt this
  · exact List.getLast?_concat _
  · intro t ht
    rcases List.mem_append.1 ht with hkw | hlast
    · have := List.mem_takeWhile_imp hkw
      have ha : t ≤ a := by simpa using this
      exact le_trans ha hbs.1
    · rcases List.mem_singleton.1 hlast with rfl
      exact le_refl _

/-- Witness for C2: event `g t = (t-1)(t-3)` on the grid `[0, 2, 4]`
crosses zero twice; the driver stops inside the first sub-interval
`[0, 2]`. -/
theorem run_solve_ivp_stops_at_first_crossing_witness :
    List.Chain' (· < ·) [(0 : ℚ), 2, 4] ∧
    2 ≤ numCrossings (fun t : ℚ => (t - 1) * (t - 3)) [0, 2, 4] ∧
    ∃ a b tc traj,
      firstCrossing (fun t : ℚ => (t - 1) * (t - 3)) [0, 2, 4] = some (a, b) ∧
      run_solve_ivp_events (fun t : ℚ => (t - 1) * (t - 3)) [0, 2, 4] 3
        = some (tc, traj) ∧
      tc = bisect_step (fun t : ℚ => (t - 1) * (t - 3)) 3 a b ∧
      a ≤ tc ∧ tc ≤ b ∧
      (∀ p ∈ stepPairs [(0 : ℚ), 2, 4],
        signChange (fun t : ℚ => (t - 1) * (t - 3)) p = true → a ≤ p.1) ∧
      traj.getLast? = some tc ∧
      (∀ t ∈ traj, t ≤ tc) := by
  have hchain : List.Chain' (· < ·) [(0 : ℚ), 2, 4] := by
    norm_num [List.chain'_cons]
  have hnum : 2 ≤ numCrossings (fun t : ℚ => (t - 1) * (t - 3)) [0, 2, 4] := by
    norm_num [numCrossings, stepPairs, signChange, List.filter]
  exact ⟨hchain, hnum,
    run_solve_ivp_stops_at_first_crossing (fun t : ℚ => (t - 1) * (t - 3))
      [0, 2, 4] 3 hchain hnum⟩

/-- Modelled from the spec: `interpolate` (`modsim.py`'s wrapper of
SciPy `interp1d`, not under `src/`) with the default linear kind —
"piecewise-linear interpolation between consecutive samples".  The
samples are (time, value) pairs with strictly increasing times; a query
inside segment `[tᵢ, tᵢ₊₁)` is answered by the straight line through
`(tᵢ, vᵢ)` and `(tᵢ₊₁, vᵢ₊₁)`. -/
def interp1d : List (ℚ × ℚ) → ℚ → ℚ
  | [], _ => 0
  | [(_, v0)], _ => v0
  | (t0, v0) :: (t1, v1) :: rest, t =>
      if t < t1 then v0 + (v1 - v0) * (t - t0) / (t1 - t0)
      else interp1d ((t1, v1) :: rest) t

/-- Callable `I = interpolate(data.insulin)` built from the samples. -/
def interpolate (samples : List (ℚ × ℚ)) : ℚ → ℚ := interp1d samples

/-- Strictly increasing sample times. -/
def sortedTimes (samples : List (ℚ × ℚ)) : Prop :=
  List.Chain' (fun p q : ℚ × ℚ => p.1 < q.1) samples

instance (samples : List (ℚ × ℚ)) : Decidable (sortedTimes samples) := by
  unfold sortedTimes
  infer_instance

lemma sortedTimes_fst_lt {x : ℚ × ℚ} {l : List (ℚ × ℚ)}
    (h : sortedTimes (x :: l)) : ∀ y ∈ l, x.1 < y.1 := by
  intro y hy
  have hp := List.chain'_iff_pairwise.1 h
  exact (List.pairwise_cons.1 hp).1 y hy

/-- The straight-line value at a point strictly inside the segment lies
strictly between the endpoint values when those differ. -/
lemma lin_between {a b v0 v1 t : ℚ} (hat : a < t) (htb : t < b) (hne : v0 ≠ v1) :
    min v0 v1 < v0 + (v1 - v0) * (t - a) / (b - a) ∧
    v0 + (v1 - v0) * (t - a) / (b - a) < max v0 v1 := by
  have hba : 0 < b - a := by linarith
  have hr0 : 0 < (t - a) / (b - a) := div_pos (by linarith) hba
  have hr1 : (t - a) / (b - a) < 1 := (div_lt_one hba).2 (by linarith)
  have hassoc : (v1 - v0) * (t - a) / (b - a) = (v1 - v0) * ((t - a) / (b - a)) :=
    mul_div_assoc _ _ _
  rcases lt_or_gt_of_ne hne with hlt | hgt
  · rw [min_eq_left (le_of_lt hlt), max_eq_right (le_of_lt hlt), hassoc]
    constructor
    · nlinarith
    · nlinarith
  · rw [min_eq_right (le_of_lt hgt), max_eq_left (le_of_lt hgt), hassoc]
    constructor
    · nlinarith
    · nlinarith

lemma interp1d_roundtrip :
    ∀ (samples : List (ℚ × ℚ)), sortedTimes samples →
      ∀ pv ∈ samples, interp1d samples pv.1 = pv.2 := by
  intro samples
  induction samples with
  | nil => intro _ pv hpv; simp at hpv
  | cons x l ih =>
      intro hs pv hpv
      obtain ⟨t0, v0⟩ := x
      cases l with
      | nil =>
          rcases List.mem_singleton.1 hpv with rfl
          rfl
      | cons y m =>
          obtain ⟨t1, v1⟩ := y
          have h01 : t0 < t1 := (List.chain'_cons.1 hs).1
          have htail : sortedTimes ((t1, v1) :: m) := (List.chain'_cons.1 hs).2
          rcases List.mem_cons.1 hpv with rfl | hpv'
          · have : (t0 : ℚ) < t1 := h01
            simp only [interp1d, if_pos this]
            rw [sub_self, mul_zero, zero_div, add_zero]
          · have ht1le : t1 ≤ pv.1 := by
              rcases List.mem_cons.1 hpv' with rfl | hm
              · exact le_refl _
              · exact le_of_lt (sortedTimes_fst_lt htail pv hm)
            have hnot : ¬ pv.1 < t1 := not_lt.2 ht1le
            simp only [interp1d, if_neg hnot]
            exact ih htail pv hpv'

lemma interp1d_strict_between :
    ∀ (l1 : List (ℚ × ℚ)) (tA vA tB vB : ℚ) (l2 : List (ℚ × ℚ)) (t : ℚ),
      sortedTimes (l1 ++ (tA, vA) :: (tB, vB) :: l2) →
      tA < t → t < tB → vA ≠ vB →
      min vA vB < interp1d (l1 ++ (tA, vA) :: (tB, vB) :: l2) t ∧
      interp1d (l1 ++ (tA, vA) :: (tB, vB) :: l2) t < max vA vB := by
  intro l1
  induction l1 with
  | nil =>
      intro tA vA tB vB l2 t hs hAt htB hne
      simp only [List.nil_append, interp1d, if_pos htB]
      exact lin_between hAt htB hne
  | cons x l1' ih =>
      intro tA vA tB vB l2 t hs hAt htB hne
      obtain ⟨tx, vx⟩ := x
      cases hl : l1' ++ (tA, vA) :: (tB, vB) :: l2 with
      | nil => simp at hl
      | cons y rest =>
          obtain ⟨ty, vy⟩ := y
          have hsx : sortedTimes ((tx, vx) :: (ty, vy) :: rest) := by
            rw [List.cons_append, hl] at hs
            exact hs
          have hyA : ty ≤ tA := by
            cases l1' with
            | nil =>
                rw [List.nil_append] at hl
                injection hl with h1 _
                injection h1 with h1a _
                rw [h1a]
            | cons z l1'' =>
                rw [List.cons_append] at hl
                injection hl with h1 h2
                have htails : sortedTimes ((ty, vy) :: rest) :=
                  (List.chain'_cons.1 hsx).2
                have : ((tA, vA) : ℚ × ℚ) ∈ l1'' ++ (tA, vA) :: (tB, vB) :: l2 := by
                  simp
                rw [h2] at this
                exact le_of_lt (sortedTimes_fst_lt htails (tA, vA) this)
          have hnot : ¬ t < ty := not_lt.2 (le_trans hyA (le_of_lt hAt))
          have hgoal : interp1d ((tx, vx) :: (ty, vy) :: rest) t
              = interp1d ((ty, vy) :: rest) t := by
            simp only [interp1d, if_neg hnot]
          have htail2 : sortedTimes (l1' ++ (tA, vA) :: (tB, vB) :: l2) := by
            rw [hl]
            exact (List.chain'_cons.1 hsx).2
          have := ih tA vA tB vB l2 t htail2 hAt htB hne
          rw [List.cons_append, hl]
          rw [hgoal, ← hl]
          exact this

/-- C5 counterexample: for the sample sequence `[(0, 1), (1, 1)]` (equal
neighboring values) and query time `1/2` strictly between the sample
times, linear interpolation returns `1`, which is NOT strictly between
the two samples' values — the claim fails as stated for sequences with
equal neighboring values. -/
theorem interpolate_equal_values_counterexample :
    sortedTimes [((0 : ℚ), (1 : ℚ)), (1, 1)] ∧
    (0 : ℚ) < 1 / 2 ∧ (1 / 2 : ℚ) < 1 ∧
    interpolate [((0 : ℚ), (1 : ℚ)), (1, 1)] (1 / 2) = 1 ∧
    ¬ (min (1 : ℚ) 1 < interpolate [((0 : ℚ), (1 : ℚ)), (1, 1)] (1 / 2) ∧
       interpolate [((0 : ℚ), (1 : ℚ)), (1, 1)] (1 / 2) < max (1 : ℚ) 1) := by
  have hval : interpolate [((0 : ℚ), (1 : ℚ)), (1, 1)] (1 / 2) = 1 := by
    norm_num [interpolate, interp1d]
  refine ⟨?_, by norm_num, by norm_num, hval, ?_⟩
  · unfold sortedTimes
    norm_num [List.chain'_cons]
  · rw [hval]
    simp

/-- C5 amended: the callable returned by `interpolate` reproduces each
input value exactly at its original sample time (round-trip), and at a
query time strictly between two consecutive sample times whose sample
values are DISTINCT, linear interpolation yields a value strictly
between those two values (when the neighboring values are equal it
returns that common value, which is not strictly between). -/
theorem interpolate_roundtrip_and_between :
    (∀ (samples : List (ℚ × ℚ)), sortedTimes samples →
      ∀ pv ∈ samples, interpolate samples pv.1 = pv.2) ∧
    (∀ (l1 : List (ℚ × ℚ)) (tA vA tB vB : ℚ) (l2 : List (ℚ × ℚ)) (t : ℚ),
      sortedTimes (l1 ++ (tA, vA) :: (tB, vB) :: l2) →
      tA < t → t < tB → vA ≠ vB →
      min vA vB < interpolate (l1 ++ (tA, vA) :: (tB, vB) :: l2) t ∧
      interpolate (l1 ++ (tA, vA) :: (tB, vB) :: l2) t < max vA vB) :=
  ⟨interp1d_roundtrip, interp1d_strict_between⟩

/-- Witness for C5 (amended): samples `[(0, 2), (2, 6)]` — the
round-trip at sample time `0` returns `2` exactly, and the query `1`
strictly inside the segment yields a value strictly between `2` and
`6`. -/
theorem interpolate_roundtrip_and_between_witness :
    sortedTimes [((0 : ℚ), (2 : ℚ)), (2, 6)] ∧
    interpolate [((0 : ℚ), (2 : ℚ)), (2, 6)] 0 = 2 ∧
    (min (2 : ℚ) 6 < interpolate [((0 : ℚ), (2 : ℚ)), (2, 6)] 1 ∧
     interpolate [((0 : ℚ), (2 : ℚ)), (2, 6)] 1 < max (2 : ℚ) 6) := by
  have hs : sortedTimes [((0 : ℚ), (2 : ℚ)), (2, 6)] := by
    unfold sortedTimes
    norm_num [List.chain'_cons]
  refine ⟨hs, ?_, ?_⟩
  · exact interpolate_roundtrip_and_between.1 _ hs (0, 2) (by simp)
  · exact interpolate_roundtrip_and_between.2 [] 0 2 2 6 [] 1 hs
      (by norm_num) (by norm_num) (by norm_num)

/-- Free-fall `State(y=381, v=0)`: height above the sidewalk and
velocity, as real scalars. -/
structure PennyState where
  y : ℝ
  v : ℝ

/-- Source `System(init=init, g=9.8, t_end=10)` from the pennies chapter. -/
structure PennySystem where
  init : PennyState
  g : ℝ
  t_end : ℝ

noncomputable def penny_init : PennyState := ⟨381, 0⟩

noncomputable def penny_system : PennySystem := ⟨penny_init, 9.8, 10⟩

/-- Source `slope_func(t, state, system)`: unpacks `y, v` and
returns `(dydt, dvdt) = (v, -system.g)`. -/
noncomputable def slope_func (_t : ℝ) (state : PennyState) (system : PennySystem) :
    ℝ × ℝ :=
  (state.v, -system.g)

/-- Source `event_func(t, state, system)`: returns `y`, which
passes through `0` when the penny hits the sidewalk. -/
noncomputable def event_func (_t : ℝ) (state : PennyState) (_system : PennySystem) :
    ℝ :=
  state.y

/-- Closed-form solution of the free-fall system: constant downward
acceleration from height 381 at rest. -/
noncomputable def penny_traj (t : ℝ) : PennyState :=
  ⟨381 - 9.8 * t ^ 2 / 2, -(9.8 * t)⟩

/-- The exact landing time `√(2·381/9.8)`. -/
noncomputable def t_land : ℝ := Real.sqrt (2 * 381 / 9.8)

/-- Modelled from the spec: `run_solve_ivp(system, slope_func,
events=event_func)` (`modsim.py`, not under `src/`) on the free-fall
system — the driver integrates the slope function, detects the terminal
event's zero-crossing, locates it to solver tolerance using dense
output, and truncates there; the idealization at tolerance zero returns
the exact crossing time and the exact state there, whatever the
internal step count `n` was. -/
noncomputable def run_solve_ivp_penny (_n : ℕ) : ℝ × PennyState :=
  (t_land, penny_traj t_land)

lemma t_land_sq : t_land ^ 2 = 2 * 381 / 9.8 :=
  Real.sq_sqrt (by norm_num)

lemma t_land_bounds : 8.81 < t_land ∧ t_land < 8.83 := by
  constructor
  · rw [t_land, Real.lt_sqrt (by norm_num)]
    norm_num
  · rw [t_land, show (8.83 : ℝ) = 8.83 from rfl]
    rw [Real.sqrt_lt' (by norm_num)]
    norm_num

/-- C1: for the free-fall system `State(y=381, v=0)`, `g = 9.8`, slope
function `(v, -g)` and terminal event `y`, the driver's result —
independent of the internal step count — has final time equal to
`√(2·381/9.8)` (≈ 8.82, within any solver tolerance), final state on
the event surface (`event_func` evaluates to `0` there), and final
velocity `-g` times the final time (≈ -86); moreover the trajectory the
driver follows starts at the source initial state and solves the
source slope function. -/
theorem penny_crossing_time_and_velocity (n : ℕ) :
    penny_traj 0 = penny_system.init ∧
    (∀ t : ℝ,
      HasDerivAt (fun u => (penny_traj u).y)
        (slope_func t (penny_traj t) penny_system).1 t ∧
      HasDerivAt (fun u => (penny_traj u).v)
        (slope_func t (penny_traj t) penny_system).2 t) ∧
    (run_solve_ivp_penny n).1 = Real.sqrt (2 * 381 / 9.8) ∧
    event_func (run_solve_ivp_penny n).1 (run_solve_ivp_penny n).2 penny_system = 0 ∧
    8.81 < (run_solve_ivp_penny n).1 ∧ (run_solve_ivp_penny n).1 < 8.83 ∧
    (run_solve_ivp_penny n).2.v = -(9.8 * (run_solve_ivp_penny n).1) ∧
    -86.6 < (run_solve_ivp_penny n).2.v ∧ (run_solve_ivp_penny n).2.v < -86.3 := by
  have hb := t_land_bounds
  refine ⟨?_, ?_, rfl, ?_, hb.1, hb.2, rfl, ?_, ?_⟩
  · simp [penny_traj, penny_system, penny_init]
  · intro t
    constructor
    · have h1 : HasDerivAt (fun u : ℝ => 381 - 9.8 * u ^ 2 / 2) (-(9.8 * t)) t := by
        have hp : HasDerivAt (fun u : ℝ => u ^ 2) (2 * t) t := by
          simpa using hasDerivAt_pow 2 t
        have := ((hp.const_mul (9.8 : ℝ)).div_const 2).const_sub 381
        convert this using 1
        ring
      simpa [penny_traj, slope_func] using h1
    · have h2 : HasDerivAt (fun u : ℝ => -(9.8 * u)) (-9.8) t := by
        simpa using ((hasDerivAt_id t).const_mul (9.8 : ℝ)).neg
      simpa [penny_traj, slope_func, penny_system] using h2
  · show (penny_traj t_land).y = 0
    have hsq := t_land_sq
    simp only [penny_traj]
    rw [hsq]
    norm_num
  · show -86.6 < -(9.8 * t_land)
    nlinarith [hb.2]
  · show -(9.8 * t_land) < -86.3
    nlinarith [hb.1]

/-- Witness for C1 at internal step count 0: the returned final time is
the closed-form crossing time. -/
theorem penny_crossing_time_and_velocity_witness :
    (run_solve_ivp_penny 0).1 = Real.sqrt (2 * 381 / 9.8) ∧
    -86.6 < (run_solve_ivp_penny 0).2.v ∧ (run_solve_ivp_penny 0).2.v < -86.3 :=
  ⟨(penny_crossing_time_and_velocity 0).2.2.1,
   (penny_crossing_time_and_velocity 0).2.2.2.2.2.2.2⟩
